import Mathlib

/-!
Verification of the filename-normalization tool (chinese_to_arabic.py and
pad_chapters.py): a shallow embedding of the transformation engines
(`chinese_to_arabic`, `replace_chinese_numbers`, `pad_chapter_number`) and of
the per-file harness (`process_file`, the tally loop of
`convert_filenames`/`pad_filenames`), followed by theorems settling the claims
about them.

Strings are modelled as `List Char` at the core (Lean `String` is a wrapper
around exactly that list); fallible code (a regex group access that can raise
`IndexError`) is modelled with `Except`.
-/

/-- The module-level constant CHINESE_NUM_MAP of chinese_to_arabic.py
(lines 11-15): Chinese numeral symbol to numeric weight.  A character not in
the dict maps to `none` (Python `dict.get` returning `None`). -/
def CHINESE_NUM_MAP (c : Char) : Option Nat :=
  if c = '零' then some 0
  else if c = '一' then some 1
  else if c = '二' then some 2
  else if c = '三' then some 3
  else if c = '四' then some 4
  else if c = '五' then some 5
  else if c = '六' then some 6
  else if c = '七' then some 7
  else if c = '八' then some 8
  else if c = '九' then some 9
  else if c = '十' then some 10
  else if c = '百' then some 100
  else if c = '千' then some 1000
  else if c = '万' then some 10000
  else if c = '亿' then some 100000000
  else none

/-- Membership in the regex character class [零一二三四五六七八九十百千万亿]
(the keys of CHINESE_NUM_MAP). -/
def isChineseNumChar (c : Char) : Bool :=
  (CHINESE_NUM_MAP c).isSome

/-- Python `str.isdigit()` for the strings handled here: nonempty and all
decimal digits 0-9.  (Python also accepts some other Unicode digit characters;
none of them can occur in the tokens this program extracts, whose alphabets
are the Chinese-numeral class and ASCII `\d`.) -/
def pyIsDigitStr (s : List Char) : Bool :=
  !s.isEmpty && s.all Char.isDigit

/-- Python `int(...)` on an all-digit string: decimal value. -/
def parseDigits (s : List Char) : Nat :=
  s.foldl (fun a c => 10 * a + (c.toNat - '0'.toNat)) 0

/-- One step of the accumulation loop of `chinese_to_arabic` (lines 26-38 of
chinese_to_arabic.py), on the state (total, current).  A symbol of weight >= 10
closes the current run (an absent digit counts as 1) and resets current; a
digit symbol overwrites current; an unmapped character is skipped.  The Python
variable `prev_value` is written on every iteration but never read, so it is
not part of the state. -/
def caStep : Int × Int → Char → Int × Int
  | (total, current), ch =>
    match CHINESE_NUM_MAP ch with
    | none => (total, current)
    | some v =>
      if 10 ≤ v then
        (total + (if current = 0 then 1 else current) * (v : Int), 0)
      else
        (total, (v : Int))

/-- chinese_to_arabic (lines 17-40) on a list of characters: digit fast path,
otherwise the left-to-right accumulation, returning total + current. -/
def chinese_to_arabicL (s : List Char) : Int :=
  if pyIsDigitStr s then (parseDigits s : Int)
  else
    let tc := s.foldl caStep (0, 0)
    tc.1 + tc.2

/-- chinese_to_arabic on a Lean string (the Python signature str -> int). -/
def chinese_to_arabic (s : String) : Int :=
  chinese_to_arabicL s.data

/-- Python `str(...)` of an int: decimal representation, with a sign for
negative values (never produced by this program). -/
def str_of_int (i : Int) : List Char :=
  if i < 0 then '-' :: Nat.toDigits 10 i.natAbs
  else Nat.toDigits 10 i.natAbs

/-- Python `s.replace(old, new)` (all non-overlapping occurrences, scanned
left to right), with explicit structural fuel; the fuel is always instantiated
with `s.length`, which is sufficient for nonempty `old`. -/
def strReplaceFuel (old new : List Char) : Nat → List Char → List Char
  | 0, s => s
  | _ + 1, [] => []
  | fuel + 1, c :: rest =>
    if old.isPrefixOf (c :: rest) then
      new ++ strReplaceFuel old new fuel (List.drop old.length (c :: rest))
    else
      c :: strReplaceFuel old new fuel rest

/-- Python `s.replace(old, new)`.  All callers in the source pass a nonempty
`old` (a regex match is nonempty). -/
def str_replace (s old new : List Char) : List Char :=
  strReplaceFuel old new s.length s

/-- Python `s.split(old)` (pieces between non-overlapping occurrences of
`old`, scanned left to right), with the same fuel discipline. -/
def strSplitFuel (old : List Char) : Nat → List Char → List (List Char)
  | 0, s => [s]
  | _ + 1, [] => [[]]
  | fuel + 1, c :: rest =>
    if old.isPrefixOf (c :: rest) then
      [] :: strSplitFuel old fuel (List.drop old.length (c :: rest))
    else
      match strSplitFuel old fuel rest with
      | [] => [[c]]
      | h :: t => (c :: h) :: t

/-- Python `s.split(old)`. -/
def str_split (s old : List Char) : List (List Char) :=
  strSplitFuel old s.length s

/-- First character of `l` if it lies in the character class `units`,
otherwise `none`: the unit/separator character-class check that closes each
regex pattern. -/
def classHead (units : List Char) : List Char → Option Char
  | [] => none
  | u :: _ => if u ∈ units then some u else none

/-- Leftmost match of the regex `(第)([Chinese numeral]+)([units])`
(pattern 1 of replace_chinese_numbers, line 45): at each start position in
turn, a literal '第', then a maximal nonempty run of numeral-class characters,
then one character of the `units` class.  Returns (numeral run, unit char).
Greedy `+` needs no backtracking here because the unit classes are disjoint
from the numeral class. -/
def searchLead (units : List Char) : List Char → Option (List Char × Char)
  | [] => none
  | c :: rest =>
    if c = '第' then
      match rest.takeWhile isChineseNumChar, classHead units (rest.dropWhile isChineseNumChar) with
      | x :: xs, some u => some (x :: xs, u)
      | _, _ => searchLead units rest
    else searchLead units rest

/-- Leftmost match of the regex `([Chinese numeral]+)([units])` (patterns 2
and 3 of replace_chinese_numbers, lines 46-47; `units` is a unit-keyword class
or the separator class).  Returns (numeral run, class char). -/
def searchRun (units : List Char) : List Char → Option (List Char × Char)
  | [] => none
  | c :: rest =>
    if isChineseNumChar c then
      match classHead units (rest.dropWhile isChineseNumChar) with
      | some u => some (c :: rest.takeWhile isChineseNumChar, u)
      | none => searchRun units rest
    else searchRun units rest

/-- The character class [章节集话部分] of pattern 1 (six single characters). -/
def unitsP1 : List Char := ['章', '节', '集', '话', '部', '分']

/-- The character class [章节集话] of pattern 2. -/
def unitsP2 : List Char := ['章', '节', '集', '话']

/-- The separator class [_\- ] of pattern 3. -/
def sepsP3 : List Char := ['_', '-', ' ']

/-- The `for pattern in patterns: match = re.search(...)` loop of
replace_chinese_numbers (lines 44-52): groups of the first pattern that
matches anywhere in the filename.  Pattern 1 has three groups, pattern 2 has
two, pattern 3 has one. -/
def firstMatchGroups (f : List Char) : Option (List (List Char)) :=
  match searchLead unitsP1 f with
  | some (run, u) => some [['第'], run, [u]]
  | none =>
    match searchRun unitsP2 f with
    | some (run, u) => some [run, [u]]
    | none =>
      match searchRun sepsP3 f with
      | some (run, _u) => some [run]
      | none => none

/-- Line 53: `chinese_num = match.group(1) if len(match.groups()) == 2 else
match.group(2)`.  Python groups are 1-indexed; an out-of-range group raises
IndexError, modelled by `none`. -/
def pickGroup (gs : List (List Char)) : Option (List Char) :=
  if gs.length = 2 then gs[0]? else gs[1]?

/-- replace_chinese_numbers (lines 42-57) on a list of characters.  The
`.error` case is the uncaught `IndexError: no such group` raised by
`match.group(2)` on a one-group match (pattern 3). -/
def replace_chinese_numbersL (f : List Char) : Except String (List Char) :=
  match firstMatchGroups f with
  | none => .ok f
  | some gs =>
    match pickGroup gs with
    | none => .error "IndexError: no such group"
    | some tok => .ok (str_replace f tok (str_of_int (chinese_to_arabicL tok)))

/-- replace_chinese_numbers on a Lean string (spec name: normalizeNumeral). -/
def replace_chinese_numbers (f : String) : Except String String :=
  (replace_chinese_numbersL f.data).map String.mk

/-- Leftmost match of the regex `(第)(\d+)(K)` for a fixed keyword string `K`
(one pattern of pad_chapter_number, lines 17-24): at each start position, a
literal '第', a maximal nonempty digit run, then the keyword.  Returns the
digit run (group 2).  Greedy `\d+` needs no backtracking because no keyword
starts with a digit. -/
def searchKw (k : List Char) : List Char → Option (List Char)
  | [] => none
  | c :: rest =>
    if c = '第' ∧ rest.takeWhile Char.isDigit ≠ [] ∧ k.isPrefixOf (rest.dropWhile Char.isDigit) then
      some (rest.takeWhile Char.isDigit)
    else searchKw k rest

/-- Python `number.zfill(w)`: left-pad with '0' to width `w` (no sign handling
needed: the padded string is a `\d+` match).  A string of length >= w is
returned unchanged. -/
def zfill (w : Nat) (s : List Char) : List Char :=
  List.replicate (w - s.length) '0' ++ s

/-- The keyword list of pad_chapter_number's patterns, in source order
(lines 17-24): 章, 节, 集, 话, 部分, 卷. -/
def kwList : List (List Char) := [['章'], ['节'], ['集'], ['话'], ['部', '分'], ['卷']]

/-- The `for pattern in patterns` loop of pad_chapter_number (lines 26-42):
on the first keyword whose pattern matches, rebuild the chapter string with
the digit run zero-filled to width 4 and replace the whole matched substring
(group 0 = 第 + digits + keyword) throughout the filename; if no pattern
matches, return the filename unchanged. -/
def padLoop : List (List Char) → List Char → List Char
  | [], f => f
  | k :: ks, f =>
    match searchKw k f with
    | some run => str_replace f ('第' :: (run ++ k)) ('第' :: (zfill 4 run ++ k))
    | none => padLoop ks f

/-- pad_chapter_number (lines 10-42) on a Lean string (spec name:
padChapterNumber). -/
def pad_chapter_number (f : String) : String :=
  ⟨padLoop kwList f.data⟩

/-- The search of the first matching pad pattern, with the keyword that
matched: `(keyword, digit run)` of the match pad_chapter_number acts on. -/
def firstPadMatch : List (List Char) → List Char → Option (List Char × List Char)
  | [], _ => none
  | k :: ks, f =>
    match searchKw k f with
    | some run => some (k, run)
    | none => firstPadMatch ks f

deriving instance DecidableEq for Except

/-- A log entry of the collection loop.  The source formats these as strings
(f"已重命名: {src} -> {dst}" and the like); the constructor carries exactly the
data spliced into the format string. -/
inductive LogEntry where
  | dryRun (src dst : String)
  | renamed (src dst : String)
  | renameError (src msg : String)
deriving DecidableEq

/-- The 4-tuple returned by process_file: (file_path, dst, changed, error). -/
structure PFResult where
  src : String
  dst : Option String
  changed : Bool
  error : Option String
deriving DecidableEq

/-- process_file of pad_chapters.py (lines 44-61).  The filesystem rename is
abstracted as its outcome `rename : Except String Unit` (the exception message
caught by the `except` clause); paths are modelled as bare filenames (empty
dirname, so basename and join are the identity).  On a failed rename the
source returns `(file_path, None, False, str(e))` - changed is False. -/
def process_file (file_path : String) (dry_run : Bool) (rename : Except String Unit) : PFResult :=
  let filename := file_path
  let new_name := pad_chapter_number filename
  if new_name ≠ filename then
    if !dry_run then
      match rename with
      | .ok _ => { src := file_path, dst := some new_name, changed := true, error := none }
      | .error e => { src := file_path, dst := none, changed := false, error := some e }
    else { src := file_path, dst := some new_name, changed := true, error := none }
  else { src := file_path, dst := some file_path, changed := false, error := none }

/-- One iteration of the collection loop of pad_filenames (pad_chapters.py
lines 98-113; convert_filenames lines 113-128 is identical): state is
(changed_count, error_count, log_entries); the error branch sits under
`if changed:`. -/
def tallyStep (dry_run : Bool) (acc : Nat × Nat × List LogEntry) (r : PFResult) :
    Nat × Nat × List LogEntry :=
  if r.changed then
    if dry_run then (acc.1 + 1, acc.2.1, acc.2.2 ++ [.dryRun r.src (r.dst.getD r.src)])
    else
      match r.error with
      | some e => (acc.1 + 1, acc.2.1 + 1, acc.2.2 ++ [.renameError r.src e])
      | none => (acc.1 + 1, acc.2.1, acc.2.2 ++ [.renamed r.src (r.dst.getD r.src)])
  else acc

/-- The collection loop over the per-file results of every file, in order. -/
def runTally (dry_run : Bool) (results : List PFResult) : Nat × Nat × List LogEntry :=
  results.foldl (tallyStep dry_run) (0, 0, [])

-- Sanity examples (concrete evaluations of the embedding)
example : chinese_to_arabic "一百二十三" = 123 := by decide
example : chinese_to_arabic "十" = 10 := by decide
example : chinese_to_arabic "二十三" = 23 := by decide
example : replace_chinese_numbers "第一百二十三章.txt" = .ok "第123章.txt" := by decide
example : replace_chinese_numbers "第十章 开端.mp3" = .ok "第10章 开端.mp3" := by decide
example : replace_chinese_numbers "三-x.txt" = .error "IndexError: no such group" := by decide
example : replace_chinese_numbers "abc.txt" = .ok "abc.txt" := by decide
example : pad_chapter_number "第254章 内容介绍.mp3" = "第0254章 内容介绍.mp3" := by decide
example : pad_chapter_number "第1节 开端.txt" = "第0001节 开端.txt" := by decide
example : pad_chapter_number "第1234章 大结局.flac" = "第1234章 大结局.flac" := by decide
example : pad_chapter_number "第1节 第2章.txt" = "第1节 第0002章.txt" := by decide
example : replace_chinese_numbers "第二章 二.txt" = .ok "第2章 2.txt" := by decide
example : replace_chinese_numbers "一章第二章.txt" = .ok "一章第2章.txt" := by decide
example : replace_chinese_numbers "一章第2章.txt" = .ok "1章第2章.txt" := by decide

/-- A decimal digit character is not the marker character 第. -/
theorem digit_ne_marker {c : Char} (h : Char.isDigit c = true) : c ≠ '第' := by
  intro he
  subst he
  exact absurd h (by decide)

/-- zfill to width 4 always yields a string of length at least 4. -/
theorem zfill_length_ge (s : List Char) : 4 ≤ (zfill 4 s).length := by
  simp only [zfill, List.length_append, List.length_replicate]
  omega

/-- zfill leaves a string of length at least 4 unchanged. -/
theorem zfill_eq_of_ge (s : List Char) (h : 4 ≤ s.length) : zfill 4 s = s := by
  simp [zfill, Nat.sub_eq_zero_of_le h]

/-- zfill is idempotent at width 4. -/
theorem zfill_zfill (s : List Char) : zfill 4 (zfill 4 s) = zfill 4 s :=
  zfill_eq_of_ge _ (zfill_length_ge s)

/-- zfill of an all-digit string is all digits. -/
theorem zfill_digits (s : List Char) (h : ∀ c ∈ s, Char.isDigit c = true) :
    ∀ c ∈ zfill 4 s, Char.isDigit c = true := by
  intro c hc
  rcases List.mem_append.mp hc with h0 | h1
  · rw [List.eq_of_mem_replicate h0]; decide
  · exact h c h1

/-- zfill never returns the empty string (its length is at least 4). -/
theorem zfill_ne_nil (s : List Char) : zfill 4 s ≠ [] := by
  intro h
  have := zfill_length_ge s
  rw [h] at this
  simp at this

/-- The fuel argument of strReplaceFuel is irrelevant once it covers the
string's length (so `str_replace` is the unique fixpoint semantics). -/
theorem strReplaceFuel_congr (old new : List Char) (hold : old ≠ []) :
    ∀ f₁ f₂ s : _, s.length ≤ f₁ → s.length ≤ f₂ →
      strReplaceFuel old new f₁ s = strReplaceFuel old new f₂ s := by
  intro f₁
  induction f₁ with
  | zero =>
    intro f₂ s h1 _h2
    have hs : s = [] := List.length_eq_zero.mp (Nat.le_zero.mp h1)
    subst hs
    cases f₂ <;> rfl
  | succ f₁ ih =>
    intro f₂ s h1 h2
    cases s with
    | nil => cases f₂ <;> rfl
    | cons c rest =>
      cases f₂ with
      | zero => simp at h2
      | succ f₂ =>
        have holdlen : 0 < old.length := List.length_pos.mpr hold
        simp only [strReplaceFuel]
        by_cases hp : old.isPrefixOf (c :: rest)
        · rw [if_pos hp, if_pos hp]
          congr 1
          apply ih
          · simp only [List.length_drop, List.length_cons]
            simp only [List.length_cons] at h1
            omega
          · simp only [List.length_drop, List.length_cons]
            simp only [List.length_cons] at h2
            omega
        · rw [if_neg hp, if_neg hp]
          congr 1
          apply ih
          · simp only [List.length_cons] at h1; omega
          · simp only [List.length_cons] at h2; omega

/-- Replacing a substring by itself is the identity (for any fuel). -/
theorem strReplaceFuel_self (old : List Char) :
    ∀ fuel s : _, strReplaceFuel old old fuel s = s := by
  intro fuel
  induction fuel with
  | zero => intro s; rfl
  | succ fuel ih =>
    intro s
    cases s with
    | nil => rfl
    | cons c rest =>
      simp only [strReplaceFuel]
      by_cases hp : old.isPrefixOf (c :: rest)
      · rw [if_pos hp, ih]
        obtain ⟨t, ht⟩ := List.isPrefixOf_iff_prefix.mp hp
        rw [← ht, List.drop_left]
      · rw [if_neg hp, ih]

/-- Python replace by itself is the identity. -/
theorem str_replace_self (s old : List Char) : str_replace s old old = s :=
  strReplaceFuel_self old s.length s

/-- Replacement of a 第-headed pattern by a 第-headed replacement commutes
with splitting off the leading digit run: the digit run before the first
non-digit is untouched, and the remainder is the replacement of the original
remainder. -/
theorem strReplaceFuel_digits (m0t newt : List Char) :
    ∀ fuel s : _, s.length ≤ fuel →
      (strReplaceFuel ('第' :: m0t) ('第' :: newt) fuel s).takeWhile Char.isDigit
        = s.takeWhile Char.isDigit ∧
      (strReplaceFuel ('第' :: m0t) ('第' :: newt) fuel s).dropWhile Char.isDigit
        = strReplaceFuel ('第' :: m0t) ('第' :: newt) fuel (s.dropWhile Char.isDigit) := by
  intro fuel
  induction fuel with
  | zero =>
    intro s h
    have hs : s = [] := List.length_eq_zero.mp (Nat.le_zero.mp h)
    subst hs
    exact ⟨rfl, rfl⟩
  | succ fuel ih =>
    intro s h
    cases s with
    | nil => exact ⟨rfl, rfl⟩
    | cons c rest =>
      have hmark : Char.isDigit '第' = false := by decide
      by_cases hp : ('第' :: m0t).isPrefixOf (c :: rest)
      · have hc : c = '第' := by
          obtain ⟨t, ht⟩ := List.isPrefixOf_iff_prefix.mp hp
          rw [List.cons_append] at ht
          exact (List.cons.inj ht).1.symm
        subst hc
        have heq : strReplaceFuel ('第' :: m0t) ('第' :: newt) (fuel + 1) ('第' :: rest)
            = '第' :: (newt ++ strReplaceFuel ('第' :: m0t) ('第' :: newt) fuel
                (List.drop ('第' :: m0t).length ('第' :: rest))) := by
          simp only [strReplaceFuel, if_pos hp, List.cons_append]
        constructor
        · rw [heq, List.takeWhile_cons_of_neg (by simp [hmark]),
            List.takeWhile_cons_of_neg (by simp [hmark])]
        · rw [heq, List.dropWhile_cons_of_neg (by simp [hmark]),
            List.dropWhile_cons_of_neg (by simp [hmark])]
          simp only [strReplaceFuel, if_pos hp, List.cons_append]
      · have heq : strReplaceFuel ('第' :: m0t) ('第' :: newt) (fuel + 1) (c :: rest)
            = c :: strReplaceFuel ('第' :: m0t) ('第' :: newt) fuel rest := by
          simp only [strReplaceFuel, if_neg hp]
        have hlen : rest.length ≤ fuel := by
          simp only [List.length_cons] at h; omega
        have ih' := ih rest hlen
        by_cases hd : Char.isDigit c
        · constructor
          · rw [heq, List.takeWhile_cons_of_pos hd, List.takeWhile_cons_of_pos hd, ih'.1]
          · rw [heq, List.dropWhile_cons_of_pos hd, List.dropWhile_cons_of_pos hd, ih'.2]
            apply strReplaceFuel_congr _ _ (by simp)
            · exact le_trans ((List.dropWhile_sublist _).length_le) hlen
            · exact le_trans ((List.dropWhile_sublist _).length_le) (Nat.le_succ_of_le hlen)
        · constructor
          · rw [heq, List.takeWhile_cons_of_neg hd, List.takeWhile_cons_of_neg hd]
          · rw [heq, List.dropWhile_cons_of_neg hd, List.dropWhile_cons_of_neg hd]
            exact heq.symm

/-- A word that never contains 第 is a prefix of a replacement result only if
it was already a prefix of the original (both the pattern and the replacement
start with 第). -/
theorem prefix_of_strReplaceFuel (m0t newt : List Char) :
    ∀ fuel (w r : List Char), '第' ∉ w →
      w <+: strReplaceFuel ('第' :: m0t) ('第' :: newt) fuel r → w <+: r := by
  intro fuel
  induction fuel with
  | zero => intro w r _hw h; exact h
  | succ fuel ih =>
    intro w r hw h
    cases r with
    | nil => exact h
    | cons c rest =>
      by_cases hp : ('第' :: m0t).isPrefixOf (c :: rest)
      · cases w with
        | nil => exact List.nil_prefix
        | cons a w' =>
          exfalso
          have heq : strReplaceFuel ('第' :: m0t) ('第' :: newt) (fuel + 1) (c :: rest)
              = '第' :: (newt ++ strReplaceFuel ('第' :: m0t) ('第' :: newt) fuel
                  (List.drop ('第' :: m0t).length (c :: rest))) := by
            simp only [strReplaceFuel, if_pos hp, List.cons_append]
          rw [heq] at h
          have ha : a = '第' := (List.cons_prefix_cons.mp h).1
          exact hw (ha ▸ List.mem_cons_self a w')
      · have heq : strReplaceFuel ('第' :: m0t) ('第' :: newt) (fuel + 1) (c :: rest)
            = c :: strReplaceFuel ('第' :: m0t) ('第' :: newt) fuel rest := by
          simp only [strReplaceFuel, if_neg hp]
        rw [heq] at h
        cases w with
        | nil => exact List.nil_prefix
        | cons a w' =>
          obtain ⟨ha, hw'⟩ := List.cons_prefix_cons.mp h
          have hw'mem : '第' ∉ w' := fun hm => hw (List.mem_cons_of_mem a hm)
          exact List.cons_prefix_cons.mpr ⟨ha, ih w' rest hw'mem hw'⟩

/-- If a keyword search fails on a concatenation, it fails on the suffix. -/
theorem searchKw_append_none (k : List Char) :
    ∀ x t : _, searchKw k (x ++ t) = none → searchKw k t = none := by
  intro x
  induction x with
  | nil => intro t h; simpa using h
  | cons c x ih =>
    intro t h
    rw [List.cons_append] at h
    simp only [searchKw] at h
    split at h
    · exact absurd h (by simp)
    · exact ih t h

/-- The keyword search skips any leading block free of the marker 第. -/
theorem searchKw_skip (k : List Char) :
    ∀ x t : _, (∀ c ∈ x, c ≠ '第') → searchKw k (x ++ t) = searchKw k t := by
  intro x
  induction x with
  | nil => intro t _; rfl
  | cons c x ih =>
    intro t hx
    rw [List.cons_append]
    simp only [searchKw]
    rw [if_neg, ih t (fun c hc => hx c (List.mem_cons_of_mem _ hc))]
    intro hcond
    exact hx c (List.mem_cons_self c x) hcond.1

/-- takeWhile and dropWhile through a block whose elements all satisfy the
predicate. -/
theorem takeWhile_append_all {p : Char → Bool} :
    ∀ P z : List Char, (∀ c ∈ P, p c = true) →
      (P ++ z).takeWhile p = P ++ z.takeWhile p ∧ (P ++ z).dropWhile p = z.dropWhile p := by
  intro P
  induction P with
  | nil => intro z _; exact ⟨rfl, rfl⟩
  | cons a P ih =>
    intro z hP
    have ha : p a = true := hP a (List.mem_cons_self a P)
    have ih' := ih z (fun c hc => hP c (List.mem_cons_of_mem a hc))
    constructor
    · rw [List.cons_append, List.takeWhile_cons_of_pos ha, ih'.1, List.cons_append]
    · rw [List.cons_append, List.dropWhile_cons_of_pos ha, ih'.2]

/-- A successful keyword search returns a nonempty all-digit run. -/
theorem searchKw_run (k : List Char) :
    ∀ f run : _, searchKw k f = some run → run ≠ [] ∧ ∀ c ∈ run, Char.isDigit c = true := by
  intro f
  induction f with
  | nil => intro run h; simp [searchKw] at h
  | cons c rest ih =>
    intro run h
    simp only [searchKw] at h
    split at h
    · rename_i hcond
      have hr : rest.takeWhile Char.isDigit = run := by injection h
      exact ⟨hr ▸ hcond.2.1, fun c hc => List.mem_takeWhile_imp (hr ▸ hc)⟩
    · exact ih run h

/-- The keyword search for `k'` walks straight through a canonical block
`第 ++ digits ++ k` when the searched keyword starts with a different
character than `k`. -/
theorem searchKw_block (k'h kh : Char) (k't kt P : List Char)
    (hne : k'h ≠ kh) (hP : P ≠ []) (hPd : ∀ c ∈ P, Char.isDigit c = true)
    (hkh : Char.isDigit kh = false) (hkh2 : kh ≠ '第') (hkt : ∀ c ∈ kt, c ≠ '第') :
    ∀ t : _, searchKw (k'h :: k't) (('第' :: (P ++ (kh :: kt))) ++ t)
      = searchKw (k'h :: k't) t := by
  intro t
  have hsplit : ('第' :: (P ++ (kh :: kt))) ++ t = '第' :: (P ++ (kh :: (kt ++ t))) := by
    simp [List.append_assoc]
  rw [hsplit]
  have htw := takeWhile_append_all P (kh :: (kt ++ t)) hPd
  have htw1 : (P ++ (kh :: (kt ++ t))).takeWhile Char.isDigit = P := by
    rw [htw.1, List.takeWhile_cons_of_neg (by simp [hkh]), List.append_nil]
  have htw2 : (P ++ (kh :: (kt ++ t))).dropWhile Char.isDigit = kh :: (kt ++ t) := by
    rw [htw.2, List.dropWhile_cons_of_neg (by simp [hkh])]
  simp only [searchKw]
  rw [if_neg]
  · have h1 : searchKw (k'h :: k't) (P ++ (kh :: (kt ++ t)))
        = searchKw (k'h :: k't) (kh :: (kt ++ t)) :=
      searchKw_skip _ P _ (fun c hc => digit_ne_marker (hPd c hc))
    have h2 : searchKw (k'h :: k't) ((kh :: kt) ++ t) = searchKw (k'h :: k't) t :=
      searchKw_skip _ (kh :: kt) t (by
        intro c hc
        rcases List.mem_cons.mp hc with h | h
        · exact h ▸ hkh2
        · exact hkt c h)
    rw [List.cons_append] at h2
    rw [h1, h2]
  · intro hcond
    have hpre := hcond.2.2
    rw [htw2] at hpre
    exact hne (List.cons_prefix_cons.mp (List.isPrefixOf_iff_prefix.mp hpre)).1

/-- The keyword search for `k` run against its own canonical block
`第 ++ P ++ k` matches at the block head and returns exactly `P`. -/
theorem searchKw_block_self (kh : Char) (kt P : List Char)
    (hP : P ≠ []) (hPd : ∀ c ∈ P, Char.isDigit c = true)
    (hkh : Char.isDigit kh = false) :
    ∀ t : _, searchKw (kh :: kt) (('第' :: (P ++ (kh :: kt))) ++ t) = some P := by
  intro t
  have hsplit : ('第' :: (P ++ (kh :: kt))) ++ t = '第' :: (P ++ (kh :: (kt ++ t))) := by
    simp [List.append_assoc]
  rw [hsplit]
  have htw := takeWhile_append_all P (kh :: (kt ++ t)) hPd
  have htw1 : (P ++ (kh :: (kt ++ t))).takeWhile Char.isDigit = P := by
    rw [htw.1, List.takeWhile_cons_of_neg (by simp [hkh]), List.append_nil]
  have htw2 : (P ++ (kh :: (kt ++ t))).dropWhile Char.isDigit = kh :: (kt ++ t) := by
    rw [htw.2, List.dropWhile_cons_of_neg (by simp [hkh])]
  have hcond : True ∧ (P ++ (kh :: (kt ++ t))).takeWhile Char.isDigit ≠ [] ∧
      ((kh :: kt).isPrefixOf ((P ++ (kh :: (kt ++ t))).dropWhile Char.isDigit) = true) := by
    refine ⟨trivial, by rw [htw1]; exact hP, ?_⟩
    rw [htw2]
    exact List.isPrefixOf_iff_prefix.mpr ⟨t, rfl⟩
  simp only [searchKw]
  rw [if_pos hcond, htw1]

/-- If the search for a keyword `k'` (whose head differs from `kh`) finds no
match, it still finds no match after every occurrence of the matched block
`第 ++ run ++ k` is replaced by the padded block `第 ++ P ++ k`. -/
theorem searchKw_none_replace
    (k'h kh : Char) (k't kt run P : List Char)
    (hne : k'h ≠ kh) (hP : P ≠ []) (hPd : ∀ c ∈ P, Char.isDigit c = true)
    (hkh : Char.isDigit kh = false) (hkh2 : kh ≠ '第') (hkt : ∀ c ∈ kt, c ≠ '第')
    (hk' : ∀ c ∈ k'h :: k't, c ≠ '第') :
    ∀ fuel f : _, f.length ≤ fuel →
      searchKw (k'h :: k't) f = none →
      searchKw (k'h :: k't)
        (strReplaceFuel ('第' :: (run ++ (kh :: kt))) ('第' :: (P ++ (kh :: kt))) fuel f)
        = none := by
  intro fuel
  induction fuel with
  | zero =>
    intro f h hn
    have hf : f = [] := List.length_eq_zero.mp (Nat.le_zero.mp h)
    subst hf
    exact hn
  | succ fuel ih =>
    intro f hlen hn
    cases f with
    | nil => exact hn
    | cons c rest =>
      by_cases hp : ('第' :: (run ++ (kh :: kt))).isPrefixOf (c :: rest)
      · obtain ⟨t2, ht2⟩ := List.isPrefixOf_iff_prefix.mp hp
        have heq : strReplaceFuel ('第' :: (run ++ (kh :: kt))) ('第' :: (P ++ (kh :: kt)))
              (fuel + 1) (c :: rest)
            = ('第' :: (P ++ (kh :: kt)))
              ++ strReplaceFuel ('第' :: (run ++ (kh :: kt))) ('第' :: (P ++ (kh :: kt)))
                  fuel t2 := by
          simp only [strReplaceFuel, if_pos hp]
          congr 2
          rw [← ht2, List.drop_left]
        have hT : searchKw (k'h :: k't) t2 = none :=
          searchKw_append_none _ _ _ (by rw [ht2]; exact hn)
        have hlt : t2.length ≤ fuel := by
          have hl := congrArg List.length ht2
          simp only [List.length_append, List.length_cons] at hl
          simp only [List.length_cons] at hlen
          omega
        rw [heq, searchKw_block k'h kh k't kt P hne hP hPd hkh hkh2 hkt]
        exact ih t2 hlt hT
      · have heq : strReplaceFuel ('第' :: (run ++ (kh :: kt))) ('第' :: (P ++ (kh :: kt)))
              (fuel + 1) (c :: rest)
            = c :: strReplaceFuel ('第' :: (run ++ (kh :: kt))) ('第' :: (P ++ (kh :: kt)))
                fuel rest := by
          simp only [strReplaceFuel, if_neg hp]
        simp only [searchKw] at hn
        by_cases hcond : (c = '第' ∧ rest.takeWhile Char.isDigit ≠ [] ∧
            (k'h :: k't).isPrefixOf (rest.dropWhile Char.isDigit))
        · rw [if_pos hcond] at hn
          exact absurd hn (by simp)
        · rw [if_neg hcond] at hn
          have hlen' : rest.length ≤ fuel := by
            simp only [List.length_cons] at hlen; omega
          have hrec := ih rest hlen' hn
          rw [heq]
          simp only [searchKw]
          rw [if_neg]
          · exact hrec
          · intro hcond'
            apply hcond
            have hdig := strReplaceFuel_digits (run ++ (kh :: kt)) (P ++ (kh :: kt)) fuel rest hlen'
            refine ⟨hcond'.1, ?_, ?_⟩
            · rw [← hdig.1]; exact hcond'.2.1
            · have h3 := hcond'.2.2
              rw [hdig.2] at h3
              have h4 := prefix_of_strReplaceFuel (run ++ (kh :: kt)) (P ++ (kh :: kt)) fuel
                (k'h :: k't) (rest.dropWhile Char.isDigit)
                (fun hmem => hk' '第' hmem rfl)
                (List.isPrefixOf_iff_prefix.mp h3)
              exact List.isPrefixOf_iff_prefix.mpr h4

/-- If the search for keyword `k` returns the digit run `run`, then after
every occurrence of the matched block `第 ++ run ++ k` is replaced by the
padded block `第 ++ P ++ k`, the search returns exactly `P`. -/
theorem searchKw_some_replace
    (kh : Char) (kt run P : List Char)
    (hrun : run ≠ []) (hrund : ∀ c ∈ run, Char.isDigit c = true)
    (hP : P ≠ []) (hPd : ∀ c ∈ P, Char.isDigit c = true)
    (hkh : Char.isDigit kh = false) (hkh2 : kh ≠ '第') (hkt : ∀ c ∈ kt, c ≠ '第') :
    ∀ fuel f : _, f.length ≤ fuel →
      searchKw (kh :: kt) f = some run →
      searchKw (kh :: kt)
        (strReplaceFuel ('第' :: (run ++ (kh :: kt))) ('第' :: (P ++ (kh :: kt))) fuel f)
        = some P := by
  intro fuel
  induction fuel with
  | zero =>
    intro f h hs
    have hf : f = [] := List.length_eq_zero.mp (Nat.le_zero.mp h)
    subst hf
    simp [searchKw] at hs
  | succ fuel ih =>
    intro f hlen hs
    cases f with
    | nil => simp [searchKw] at hs
    | cons c rest =>
      by_cases hcond : (c = '第' ∧ rest.takeWhile Char.isDigit ≠ [] ∧
          (kh :: kt).isPrefixOf (rest.dropWhile Char.isDigit))
      · have hr : rest.takeWhile Char.isDigit = run := by
          simp only [searchKw, if_pos hcond] at hs
          exact Option.some.inj hs
        obtain ⟨w, hw⟩ := List.isPrefixOf_iff_prefix.mp hcond.2.2
        have hrest : rest = run ++ (kh :: (kt ++ w)) := by
          have h0 := (List.takeWhile_append_dropWhile Char.isDigit rest).symm
          rw [hr, ← hw] at h0
          rw [h0]
          simp [List.append_assoc]
        have hp : ('第' :: (run ++ (kh :: kt))).isPrefixOf (c :: rest) := by
          apply List.isPrefixOf_iff_prefix.mpr
          refine ⟨w, ?_⟩
          rw [hcond.1, hrest]
          simp [List.append_assoc]
        have heq : strReplaceFuel ('第' :: (run ++ (kh :: kt))) ('第' :: (P ++ (kh :: kt)))
              (fuel + 1) (c :: rest)
            = ('第' :: (P ++ (kh :: kt)))
              ++ strReplaceFuel ('第' :: (run ++ (kh :: kt))) ('第' :: (P ++ (kh :: kt)))
                  fuel (List.drop ('第' :: (run ++ (kh :: kt))).length (c :: rest)) := by
          simp only [strReplaceFuel, if_pos hp]
        rw [heq, searchKw_block_self kh kt P hP hPd hkh]
      · have hnp : ¬ ('第' :: (run ++ (kh :: kt))).isPrefixOf (c :: rest) := by
          intro hp
          obtain ⟨w, hw⟩ := List.isPrefixOf_iff_prefix.mp hp
          rw [List.cons_append] at hw
          obtain ⟨hc, hrest⟩ := List.cons.inj hw
          apply hcond
          have hrw : rest = run ++ (kh :: (kt ++ w)) := by
            rw [← hrest]; simp [List.append_assoc]
          have htw := takeWhile_append_all run (kh :: (kt ++ w)) hrund
          refine ⟨hc.symm, ?_, ?_⟩
          · rw [hrw, htw.1, List.takeWhile_cons_of_neg (by simp [hkh]), List.append_nil]
            exact hrun
          · rw [hrw, htw.2, List.dropWhile_cons_of_neg (by simp [hkh])]
            exact List.isPrefixOf_iff_prefix.mpr ⟨w, rfl⟩
        have heq : strReplaceFuel ('第' :: (run ++ (kh :: kt))) ('第' :: (P ++ (kh :: kt)))
              (fuel + 1) (c :: rest)
            = c :: strReplaceFuel ('第' :: (run ++ (kh :: kt))) ('第' :: (P ++ (kh :: kt)))
                fuel rest := by
          simp only [strReplaceFuel, if_neg hnp]
        have hs' : searchKw (kh :: kt) rest = some run := by
          simp only [searchKw, if_neg hcond] at hs
          exact hs
        have hlen' : rest.length ≤ fuel := by
          simp only [List.length_cons] at hlen; omega
        have hrec := ih rest hlen' hs'
        rw [heq]
        simp only [searchKw]
        rw [if_neg]
        · exact hrec
        · intro hcond'
          apply hcond
          have hdig := strReplaceFuel_digits (run ++ (kh :: kt)) (P ++ (kh :: kt)) fuel rest hlen'
          refine ⟨hcond'.1, by rw [← hdig.1]; exact hcond'.2.1, ?_⟩
          have h3 := hcond'.2.2
          rw [hdig.2] at h3
          have h4 := prefix_of_strReplaceFuel (run ++ (kh :: kt)) (P ++ (kh :: kt)) fuel
            (kh :: kt) (rest.dropWhile Char.isDigit)
            (by
              intro hmem
              rcases List.mem_cons.mp hmem with h | h
              · exact hkh2 h.symm
              · exact hkt '第' h rfl)
            (List.isPrefixOf_iff_prefix.mp h3)
          exact List.isPrefixOf_iff_prefix.mpr h4

/-- When no pad pattern matches, the pad loop returns the filename. -/
theorem firstPadMatch_none (ks : List (List Char)) :
    ∀ f : _, firstPadMatch ks f = none → padLoop ks f = f := by
  induction ks with
  | nil => intro f _; rfl
  | cons k ks ih =>
    intro f h
    simp only [firstPadMatch] at h
    simp only [padLoop]
    cases hs : searchKw k f with
    | some run => rw [hs] at h; simp at h
    | none => rw [hs] at h; exact ih f h

/-- When the first matching pad pattern is keyword `k` with digit run `run`,
the pad loop performs exactly the whole-match replacement for that marker. -/
theorem firstPadMatch_some (ks : List (List Char)) :
    ∀ f k run : _, firstPadMatch ks f = some (k, run) →
      k ∈ ks ∧ searchKw k f = some run ∧
      padLoop ks f = str_replace f ('第' :: (run ++ k)) ('第' :: (zfill 4 run ++ k)) := by
  induction ks with
  | nil => intro f k run h; simp [firstPadMatch] at h
  | cons k₀ ks ih =>
    intro f k run h
    simp only [firstPadMatch] at h
    simp only [padLoop]
    cases hs : searchKw k₀ f with
    | some run₀ =>
      rw [hs] at h
      simp only [Option.some.injEq, Prod.mk.injEq] at h
      obtain ⟨hk, hr⟩ := h
      subst hk; subst hr
      exact ⟨List.mem_cons_self _ _, hs, rfl⟩
    | none =>
      rw [hs] at h
      obtain ⟨hmem, hsk, hdef⟩ := ih f k run h
      exact ⟨List.mem_cons_of_mem _ hmem, hsk, hdef⟩

/-- The pad loop is idempotent on any keyword list whose keywords are
nonempty, digit-free at the head, 第-free throughout, and pairwise distinct at
the head. -/
theorem padLoop_idem_aux :
    ∀ ks : List (List Char),
      (∀ k ∈ ks, k ≠ [] ∧ Char.isDigit k.headI = false ∧ (∀ c ∈ k, c ≠ '第')) →
      ks.Pairwise (fun a b => a.headI ≠ b.headI) →
      ∀ f : _, padLoop ks (padLoop ks f) = padLoop ks f := by
  intro ks
  induction ks with
  | nil => intro _ _ f; rfl
  | cons k ks ih =>
    intro hok hpw f
    obtain ⟨hkne, hkhd, hk1⟩ := hok k (List.mem_cons_self k ks)
    cases k with
    | nil => exact absurd rfl hkne
    | cons kh kt =>
      have hkhd' : Char.isDigit kh = false := hkhd
      have hkh2 : kh ≠ '第' := hk1 kh (List.mem_cons_self kh kt)
      have hktm : ∀ c ∈ kt, c ≠ '第' := fun c hc => hk1 c (List.mem_cons_of_mem _ hc)
      cases hs : searchKw (kh :: kt) f with
      | some run =>
        have hrun := searchKw_run (kh :: kt) f run hs
        have e1 : padLoop ((kh :: kt) :: ks) f
            = str_replace f ('第' :: (run ++ (kh :: kt)))
                ('第' :: (zfill 4 run ++ (kh :: kt))) := by
          simp only [padLoop, hs]
        have h3 : searchKw (kh :: kt)
            (str_replace f ('第' :: (run ++ (kh :: kt))) ('第' :: (zfill 4 run ++ (kh :: kt))))
            = some (zfill 4 run) :=
          searchKw_some_replace kh kt run (zfill 4 run) hrun.1 hrun.2 (zfill_ne_nil run)
            (zfill_digits run hrun.2) hkhd' hkh2 hktm f.length f le_rfl hs
        rw [e1]
        have e2 : padLoop ((kh :: kt) :: ks)
              (str_replace f ('第' :: (run ++ (kh :: kt))) ('第' :: (zfill 4 run ++ (kh :: kt))))
            = str_replace
                (str_replace f ('第' :: (run ++ (kh :: kt))) ('第' :: (zfill 4 run ++ (kh :: kt))))
                ('第' :: (zfill 4 run ++ (kh :: kt)))
                ('第' :: (zfill 4 (zfill 4 run) ++ (kh :: kt))) := by
          simp only [padLoop, h3]
        rw [e2, zfill_zfill, str_replace_self]
      | none =>
        have e1 : padLoop ((kh :: kt) :: ks) f = padLoop ks f := by
          simp only [padLoop, hs]
        rw [e1]
        have hsg : searchKw (kh :: kt) (padLoop ks f) = none := by
          cases hfm : firstPadMatch ks f with
          | none => rw [firstPadMatch_none ks f hfm]; exact hs
          | some kr =>
            obtain ⟨k₂, run₂⟩ := kr
            obtain ⟨hmem, hs₂, hdef⟩ := firstPadMatch_some ks f k₂ run₂ hfm
            obtain ⟨hk₂ne, hk₂hd, hk₂1⟩ := hok k₂ (List.mem_cons_of_mem _ hmem)
            cases k₂ with
            | nil => exact absurd rfl hk₂ne
            | cons k₂h k₂t =>
              have hrun₂ := searchKw_run (k₂h :: k₂t) f run₂ hs₂
              have hne : kh ≠ k₂h := List.rel_of_pairwise_cons hpw hmem
              rw [hdef]
              exact searchKw_none_replace kh k₂h kt k₂t run₂ (zfill 4 run₂) hne
                (zfill_ne_nil run₂) (zfill_digits run₂ hrun₂.2) hk₂hd
                (hk₂1 k₂h (List.mem_cons_self _ _))
                (fun c hc => hk₂1 c (List.mem_cons_of_mem _ hc))
                (fun c hc => hk1 c hc) f.length f le_rfl hs
        have e2 : padLoop ((kh :: kt) :: ks) (padLoop ks f) = padLoop ks (padLoop ks f) := by
          simp only [padLoop, hsg]
        rw [e2]
        exact ih (fun k hk => hok k (List.mem_cons_of_mem _ hk)) hpw.of_cons f

/-- C3 (amended): padChapterNumber is idempotent: for every filename f,
padChapterNumber(padChapterNumber(f)) equals padChapterNumber(f).
(normalizeNumeral, by contrast, is not idempotent.) -/
theorem pad_chapter_number_idempotent (f : String) :
    pad_chapter_number (pad_chapter_number f) = pad_chapter_number f := by
  unfold pad_chapter_number
  congr 1
  exact padLoop_idem_aux kwList (by decide) (by decide) f.data

/-- Python split never returns an empty list of pieces. -/
theorem strSplitFuel_ne_nil (old : List Char) :
    ∀ fuel s : _, strSplitFuel old fuel s ≠ [] := by
  intro fuel
  induction fuel with
  | zero => intro s; simp [strSplitFuel]
  | succ fuel _ih =>
    intro s
    cases s with
    | nil => simp [strSplitFuel]
    | cons c rest =>
      simp only [strSplitFuel]
      by_cases hp : old.isPrefixOf (c :: rest)
      · rw [if_pos hp]; simp
      · rw [if_neg hp]
        cases hsp : strSplitFuel old fuel rest <;> simp

/-- intercalate over a single piece is that piece. -/
theorem intercalate_one (sep a : List Char) : List.intercalate sep [a] = a := by
  simp [List.intercalate]

/-- intercalate over at least two pieces peels off the first piece and one
separator. -/
theorem intercalate_two (sep a b : List Char) (l : List (List Char)) :
    List.intercalate sep (a :: b :: l) = a ++ sep ++ List.intercalate sep (b :: l) := by
  simp [List.intercalate, List.intersperse_cons_cons, List.append_assoc]

/-- Python `s.replace(old, new)` equals joining the pieces of
`s.split(old)` with `new`: every non-overlapping occurrence of `old` is
substituted, and all characters outside the occurrences are preserved. -/
theorem strReplaceFuel_eq_intercalate (old new : List Char) (hold : old ≠ []) :
    ∀ fuel s : _, s.length ≤ fuel →
      strReplaceFuel old new fuel s = List.intercalate new (strSplitFuel old fuel s) := by
  intro fuel
  induction fuel with
  | zero =>
    intro s h
    have hs : s = [] := List.length_eq_zero.mp (Nat.le_zero.mp h)
    subst hs
    simp [strReplaceFuel, strSplitFuel, intercalate_one]
  | succ fuel ih =>
    intro s h
    cases s with
    | nil => simp [strReplaceFuel, strSplitFuel, intercalate_one]
    | cons c rest =>
      have holdlen : 0 < old.length := List.length_pos.mpr hold
      simp only [strReplaceFuel, strSplitFuel]
      by_cases hp : old.isPrefixOf (c :: rest)
      · rw [if_pos hp, if_pos hp]
        have hlen : (List.drop old.length (c :: rest)).length ≤ fuel := by
          simp only [List.length_drop, List.length_cons]
          simp only [List.length_cons] at h
          omega
        cases hsp : strSplitFuel old fuel (List.drop old.length (c :: rest)) with
        | nil => exact absurd hsp (strSplitFuel_ne_nil old fuel _)
        | cons h₀ t₀ =>
          rw [intercalate_two]
          simp only [List.nil_append]
          rw [ih _ hlen, hsp]
      · rw [if_neg hp, if_neg hp]
        have hlen : rest.length ≤ fuel := by
          simp only [List.length_cons] at h; omega
        cases hsp : strSplitFuel old fuel rest with
        | nil => exact absurd hsp (strSplitFuel_ne_nil old fuel rest)
        | cons h₀ t₀ =>
          rw [ih rest hlen, hsp]
          cases t₀ with
          | nil => rw [intercalate_one, intercalate_one]
          | cons b t₁ =>
            rw [intercalate_two, intercalate_two]
            simp [List.append_assoc]

/-- Python replace as split-and-join, on the wrappers. -/
theorem str_replace_eq_intercalate (s old new : List Char) (hold : old ≠ []) :
    str_replace s old new = List.intercalate new (str_split s old) :=
  strReplaceFuel_eq_intercalate old new hold s.length s le_rfl

/-- A pattern-1 match has a nonempty numeral run. -/
theorem searchLead_run_ne (units : List Char) :
    ∀ f run u : _, searchLead units f = some (run, u) → run ≠ [] := by
  intro f
  induction f with
  | nil => intro run u h; simp [searchLead] at h
  | cons c rest ih =>
    intro run u h
    simp only [searchLead] at h
    by_cases hc : c = '第'
    · rw [if_pos hc] at h
      cases htw : rest.takeWhile isChineseNumChar with
      | nil =>
        rw [htw] at h
        exact ih run u h
      | cons x xs =>
        cases hch : classHead units (rest.dropWhile isChineseNumChar) with
        | none =>
          rw [htw, hch] at h
          exact ih run u h
        | some u' =>
          rw [htw, hch] at h
          simp only [Option.some.injEq, Prod.mk.injEq] at h
          intro hrun
          rw [← h.1] at hrun
          exact List.cons_ne_nil x xs hrun
    · rw [if_neg hc] at h
      exact ih run u h

/-- A pattern-2/3 match has a nonempty numeral run. -/
theorem searchRun_run_ne (units : List Char) :
    ∀ f run u : _, searchRun units f = some (run, u) → run ≠ [] := by
  intro f
  induction f with
  | nil => intro run u h; simp [searchRun] at h
  | cons c rest ih =>
    intro run u h
    simp only [searchRun] at h
    by_cases hc : isChineseNumChar c = true
    · rw [if_pos hc] at h
      cases hch : classHead units (rest.dropWhile isChineseNumChar) with
      | none =>
        rw [hch] at h
        exact ih run u h
      | some u' =>
        rw [hch] at h
        simp only [Option.some.injEq, Prod.mk.injEq] at h
        intro hrun
        rw [← h.1] at hrun
        exact List.cons_ne_nil c _ hrun
    · rw [if_neg hc] at h
      exact ih run u h

/-- The group the source selects (line 53) is always a nonempty numeral run
when it exists. -/
theorem pickGroup_ne_nil (f : List Char) (gs : List (List Char)) (tok : List Char)
    (h1 : firstMatchGroups f = some gs) (h2 : pickGroup gs = some tok) : tok ≠ [] := by
  unfold firstMatchGroups at h1
  cases hL : searchLead unitsP1 f with
  | some ru =>
    obtain ⟨run, u⟩ := ru
    rw [hL] at h1
    simp only [Option.some.injEq] at h1
    subst h1
    simp only [pickGroup] at h2
    norm_num at h2
    rw [← h2]
    exact searchLead_run_ne unitsP1 f run u hL
  | none =>
    rw [hL] at h1
    cases h2' : searchRun unitsP2 f with
    | some ru =>
      obtain ⟨run, u⟩ := ru
      rw [h2'] at h1
      simp only [Option.some.injEq] at h1
      subst h1
      simp only [pickGroup] at h2
      norm_num at h2
      rw [← h2]
      exact searchRun_run_ne unitsP2 f run u h2'
    | none =>
      rw [h2'] at h1
      cases h3' : searchRun sepsP3 f with
      | some ru =>
        obtain ⟨run, u⟩ := ru
        rw [h3'] at h1
        simp only [Option.some.injEq] at h1
        subst h1
        simp [pickGroup] at h2
      | none =>
        rw [h3'] at h1
        simp at h1

/-- Fold invariant of the accumulation loop: a step preserves nonnegativity of
total and current (the mapped weights are naturals). -/
theorem caStep_nonneg (t c : Int) (ch : Char) (ht : 0 ≤ t) (hc : 0 ≤ c) :
    0 ≤ (caStep (t, c) ch).1 ∧ 0 ≤ (caStep (t, c) ch).2 := by
  cases hm : CHINESE_NUM_MAP ch with
  | none => simp only [caStep, hm]; exact ⟨ht, hc⟩
  | some v =>
    by_cases h10 : 10 ≤ v
    · have hv : (0 : Int) ≤ (v : Int) := Int.natCast_nonneg v
      have hfac : (0 : Int) ≤ (if c = 0 then 1 else c) := by
        by_cases hc0 : c = 0 <;> simp [hc0, hc]
      simp only [caStep, hm, if_pos h10]
      exact ⟨add_nonneg ht (mul_nonneg hfac hv), le_refl 0⟩
    · simp only [caStep, hm, if_neg h10]
      exact ⟨ht, Int.natCast_nonneg v⟩

/-- The accumulation loop keeps (total, current) nonnegative. -/
theorem foldl_caStep_nonneg (l : List Char) : ∀ t c : Int, 0 ≤ t → 0 ≤ c →
    0 ≤ (l.foldl caStep (t, c)).1 ∧ 0 ≤ (l.foldl caStep (t, c)).2 := by
  induction l with
  | nil => intro t c ht hc; exact ⟨ht, hc⟩
  | cons ch l ih =>
    intro t c ht hc
    have h := caStep_nonneg t c ch ht hc
    have h2 := ih (caStep (t, c) ch).1 (caStep (t, c) ch).2 h.1 h.2
    simpa [List.foldl] using h2

/-- C10: for every nonempty string composed only of symbols from the
recognized numeral alphabet (the keys of CHINESE_NUM_MAP),
chinese_to_arabic terminates (it is a total function here) and returns a
nonnegative integer. -/
theorem chinese_to_arabic_nonneg (s : String) (h1 : s.data ≠ [])
    (h2 : ∀ c ∈ s.data, isChineseNumChar c = true) :
    0 ≤ chinese_to_arabic s := by
  unfold chinese_to_arabic chinese_to_arabicL
  split
  · exact Int.natCast_nonneg _
  · have h := foldl_caStep_nonneg s.data 0 0 (le_refl 0) (le_refl 0)
    exact add_nonneg h.1 h.2

/-- Witness for C10 at the concrete input "十". -/
theorem chinese_to_arabic_nonneg_witness : 0 ≤ chinese_to_arabic "十" :=
  chinese_to_arabic_nonneg "十" (by decide) (by decide)

/-- C4: the numeral 一百二十三 converts to 123 (multi-multiplier composition),
and normalizeNumeral rewrites the filename accordingly. -/
theorem replace_chinese_numbers_123 :
    chinese_to_arabic "一百二十三" = 123 ∧
    replace_chinese_numbers "第一百二十三章.txt" = .ok "第123章.txt" := by
  exact ⟨by decide, by decide⟩

/-- C5: a multiplier symbol (mapped weight >= 10) reached with current = 0
contributes exactly its weight (implicit digit 1) to the total and resets
current; concretely, a lone 十 converts to 10 inside a filename. -/
theorem multiplier_implicit_one :
    (∀ (t : Int) (ch : Char) (v : Nat), CHINESE_NUM_MAP ch = some v → 10 ≤ v →
      caStep (t, 0) ch = (t + (v : Int), 0)) ∧
    replace_chinese_numbers "第十章 开端.mp3" = .ok "第10章 开端.mp3" := by
  constructor
  · intro t ch v hmap h10
    simp only [caStep, hmap, if_pos h10]
    simp
  · decide

/-- Witness for C5: the step at total 0 on 十 (weight 10). -/
theorem multiplier_implicit_one_witness : caStep (0, 0) '十' = (10, 0) :=
  multiplier_implicit_one.1 0 '十' 10 (by decide) (by decide)

/-- C1 (failing evaluation): on a filename whose only chapter marker is a
spelled-out numeral followed by a separator (pattern 3 only), the group
selection of line 53 evaluates match.group(2) on a one-group match, so
replace_chinese_numbers raises IndexError instead of returning a string. -/
theorem replace_chinese_numbers_pattern3_raises :
    firstMatchGroups ("三-x.txt" : String).data = some [['三']] ∧
    replace_chinese_numbers "三-x.txt" = .error "IndexError: no such group" := by
  exact ⟨by decide, by decide⟩

/-- C2 (counterexample): the matched numeral substring 二 occurs twice in the
filename; Python str.replace substitutes every occurrence, so the later
repeat is rewritten too, contradicting first-occurrence-only replacement. -/
theorem replace_all_occurrences_counterexample :
    replace_chinese_numbers "第二章 二.txt" = .ok "第2章 2.txt" ∧
    ("第2章 2.txt" : String) ≠ "第2章 二.txt" := by
  exact ⟨by decide, by decide⟩

/-- C3 (counterexample): normalizeNumeral is not idempotent.  On
一章第二章.txt the first pass rewrites the pattern-1 match 第二章, and the
second pass then rewrites the pattern-2 match 一章, giving a different
string. -/
theorem normalize_not_idempotent :
    replace_chinese_numbers "一章第二章.txt" = .ok "一章第2章.txt" ∧
    replace_chinese_numbers "一章第2章.txt" = .ok "1章第2章.txt" ∧
    ("1章第2章.txt" : String) ≠ "一章第2章.txt" := by
  exact ⟨by decide, by decide, by decide⟩

/-- C9 (failing evaluation): a per-file rename failure produces a result with
changed = False (and the error message), so the collection loop - whose error
branch sits under `if changed:` - records no log entry for it and leaves
error_count at 0, while later files are still processed. -/
theorem rename_failure_not_tallied :
    process_file "第1章.txt" false (.error "Permission denied")
      = { src := "第1章.txt", dst := none, changed := false,
          error := some "Permission denied" } ∧
    runTally false
      [process_file "第1章.txt" false (.error "Permission denied"),
       process_file "第2章.txt" false (.ok ())]
      = (1, 0, [.renamed "第2章.txt" "第0002章.txt"]) := by
  exact ⟨by decide, by decide⟩

/-- C6: on the marker pad_chapter_number matches, a digit run shorter than 4
is left-padded with zeros to length exactly 4 (whole-match replacement with
the padded run), and a digit run of length 4 or more leaves the filename
unchanged (never truncated, never padded further). -/
theorem pad_chapter_number_bounds (f : String) (k run : List Char)
    (h : firstPadMatch kwList f.data = some (k, run)) :
    (run.length < 4 →
      pad_chapter_number f
        = ⟨str_replace f.data ('第' :: (run ++ k)) ('第' :: (zfill 4 run ++ k))⟩ ∧
      (zfill 4 run).length = 4) ∧
    (4 ≤ run.length → pad_chapter_number f = f) := by
  obtain ⟨_, _, hdef⟩ := firstPadMatch_some kwList f.data k run h
  constructor
  · intro h4
    constructor
    · unfold pad_chapter_number
      rw [hdef]
    · simp only [zfill, List.length_append, List.length_replicate]
      omega
  · intro h4
    unfold pad_chapter_number
    rw [hdef, zfill_eq_of_ge run h4, str_replace_self]

/-- Witness for C6 at the concrete input 第25章.txt (run length 2 < 4). -/
theorem pad_chapter_number_bounds_witness :
    pad_chapter_number "第25章.txt" = "第0025章.txt" ∧ (zfill 4 ['2', '5']).length = 4 := by
  have h := (pad_chapter_number_bounds "第25章.txt" ['章'] ['2', '5'] (by decide)).1 (by decide)
  refine ⟨?_, h.2⟩
  rw [h.1]
  decide

/-- The pad loop at any decomposition of its keyword list: when every keyword
before `k` has no match anywhere in the filename and `k`'s pattern matches,
the result is `k`'s whole-match replacement - the keywords after `k` are
never consulted. -/
theorem padLoop_first_match :
    ∀ (ks₁ : List (List Char)) (k : List Char) (ks₂ : List (List Char)) (f run : List Char),
      (∀ k' ∈ ks₁, searchKw k' f = none) →
      searchKw k f = some run →
      padLoop (ks₁ ++ k :: ks₂) f
        = str_replace f ('第' :: (run ++ k)) ('第' :: (zfill 4 run ++ k)) := by
  intro ks₁
  induction ks₁ with
  | nil =>
    intro k ks₂ f run _ hs
    simp only [List.nil_append, padLoop, hs]
  | cons k₀ ks₁ ih =>
    intro k ks₂ f run hnone hs
    have h₀ : searchKw k₀ f = none := hnone k₀ (List.mem_cons_self k₀ ks₁)
    rw [List.cons_append]
    simp only [padLoop, h₀]
    exact ih k ks₂ f run (fun k' hk' => hnone k' (List.mem_cons_of_mem _ hk')) hs

/-- C7: pad_chapter_number tries its keyword patterns in the fixed order
章, 节, 集, 话, 部分, 卷 and stops at the first pattern that matches anywhere
in the filename.  The general conjunct covers every keyword of the priority
list: for any split of the keyword list around a keyword k, if no keyword
before k matches anywhere (string position is irrelevant) and k's pattern
matches, the normalized marker is k's - whatever the keywords after k would
match.  The concrete conjuncts exercise each adjacent keyword pair with the
lower-priority marker occurring earlier in the string. -/
theorem pad_chapter_number_priority :
    (∀ (ks₁ : List (List Char)) (k : List Char) (ks₂ : List (List Char)),
      kwList = ks₁ ++ k :: ks₂ →
      ∀ (f : String) (run : List Char),
        (∀ k' ∈ ks₁, searchKw k' f.data = none) →
        searchKw k f.data = some run →
        pad_chapter_number f
          = ⟨str_replace f.data ('第' :: (run ++ k)) ('第' :: (zfill 4 run ++ k))⟩) ∧
    (pad_chapter_number "第1节 第2章.txt" = "第1节 第0002章.txt" ∧
     pad_chapter_number "第1集 第2节.txt" = "第1集 第0002节.txt" ∧
     pad_chapter_number "第1话 第2集.txt" = "第1话 第0002集.txt" ∧
     pad_chapter_number "第1部分 第2话.txt" = "第1部分 第0002话.txt" ∧
     pad_chapter_number "第1卷 第2部分.txt" = "第1卷 第0002部分.txt") := by
  constructor
  · intro ks₁ k ks₂ hdec f run hnone hs
    unfold pad_chapter_number
    congr 1
    rw [hdec]
    exact padLoop_first_match ks₁ k ks₂ f.data run hnone hs
  · exact ⟨by decide, by decide, by decide, by decide, by decide⟩

/-- Witness for C7's general conjunct: the keyword 集 (third in the priority
list) wins on 第3集.txt once 章 and 节 have no match. -/
theorem pad_chapter_number_priority_witness :
    pad_chapter_number "第3集.txt" = "第0003集.txt" := by
  rw [pad_chapter_number_priority.1 [['章'], ['节']] ['集'] [['话'], ['部', '分'], ['卷']]
    (by decide) "第3集.txt" ['3'] (by decide) (by decide)]
  decide

/-- C2 (amended): both engines substitute every non-overlapping occurrence of
the matched substring (Python str.replace), splicing the replacement between
the pieces of the split at that substring; all characters outside the
occurrences are left unchanged. -/
theorem replacement_hits_every_occurrence :
    (∀ (f : String) (gs : List (List Char)) (tok : List Char),
      firstMatchGroups f.data = some gs → pickGroup gs = some tok →
      replace_chinese_numbers f
        = .ok ⟨List.intercalate (str_of_int (chinese_to_arabicL tok))
            (str_split f.data tok)⟩) ∧
    (∀ (f : String) (k run : List Char),
      firstPadMatch kwList f.data = some (k, run) →
      pad_chapter_number f
        = ⟨List.intercalate ('第' :: (zfill 4 run ++ k))
            (str_split f.data ('第' :: (run ++ k)))⟩) := by
  constructor
  · intro f gs tok h1 h2
    have hne := pickGroup_ne_nil f.data gs tok h1 h2
    unfold replace_chinese_numbers replace_chinese_numbersL
    simp only [h1, h2]
    rw [str_replace_eq_intercalate f.data tok _ hne]
    rfl
  · intro f k run h
    obtain ⟨_, _, hdef⟩ := firstPadMatch_some kwList f.data k run h
    unfold pad_chapter_number
    rw [hdef, str_replace_eq_intercalate f.data _ _ (List.cons_ne_nil _ _)]

/-- Witness for C2's amended theorem at the concrete input 第二章 二.txt. -/
theorem replacement_hits_every_occurrence_witness :
    replace_chinese_numbers "第二章 二.txt"
      = .ok ⟨List.intercalate (str_of_int (chinese_to_arabicL ['二']))
          (str_split ("第二章 二.txt" : String).data ['二'])⟩ :=
  replacement_hits_every_occurrence.1 "第二章 二.txt" [['第'], ['二'], ['章']] ['二']
    (by decide) (by decide)

/-- Witness for C3's amended theorem at a concrete input. -/
theorem pad_chapter_number_idempotent_witness :
    pad_chapter_number (pad_chapter_number "第7章.txt") = pad_chapter_number "第7章.txt" :=
  pad_chapter_number_idempotent "第7章.txt"

/-- A character of the Chinese-numeral class is not a decimal digit. -/
theorem chineseNumChar_not_digit (c : Char) :
    isChineseNumChar c = true → Char.isDigit c = false := by
  by_cases h0 : c = '零'
  · subst h0; decide
  by_cases h1 : c = '一'
  · subst h1; decide
  by_cases h2 : c = '二'
  · subst h2; decide
  by_cases h3 : c = '三'
  · subst h3; decide
  by_cases h4 : c = '四'
  · subst h4; decide
  by_cases h5 : c = '五'
  · subst h5; decide
  by_cases h6 : c = '六'
  · subst h6; decide
  by_cases h7 : c = '七'
  · subst h7; decide
  by_cases h8 : c = '八'
  · subst h8; decide
  by_cases h9 : c = '九'
  · subst h9; decide
  by_cases h10 : c = '十'
  · subst h10; decide
  by_cases h11 : c = '百'
  · subst h11; decide
  by_cases h12 : c = '千'
  · subst h12; decide
  by_cases h13 : c = '万'
  · subst h13; decide
  by_cases h14 : c = '亿'
  · subst h14; decide
  intro h
  exfalso
  unfold isChineseNumChar CHINESE_NUM_MAP at h
  rw [if_neg h0, if_neg h1, if_neg h2, if_neg h3, if_neg h4, if_neg h5, if_neg h6,
    if_neg h7, if_neg h8, if_neg h9, if_neg h10, if_neg h11, if_neg h12, if_neg h13,
    if_neg h14] at h
  exact absurd h (by decide)

/-- A pattern-1 numeral run consists of Chinese-numeral-class characters. -/
theorem searchLead_run_chinese (units : List Char) :
    ∀ f run u : _, searchLead units f = some (run, u) →
      ∀ c ∈ run, isChineseNumChar c = true := by
  intro f
  induction f with
  | nil => intro run u h; simp [searchLead] at h
  | cons c rest ih =>
    intro run u h
    simp only [searchLead] at h
    by_cases hc : c = '第'
    · rw [if_pos hc] at h
      cases htw : rest.takeWhile isChineseNumChar with
      | nil =>
        rw [htw] at h
        exact ih run u h
      | cons x xs =>
        cases hch : classHead units (rest.dropWhile isChineseNumChar) with
        | none =>
          rw [htw, hch] at h
          exact ih run u h
        | some u' =>
          rw [htw, hch] at h
          simp only [Option.some.injEq, Prod.mk.injEq] at h
          intro d hd
          rw [← h.1] at hd
          rw [← htw] at hd
          exact List.mem_takeWhile_imp hd
    · rw [if_neg hc] at h
      exact ih run u h

/-- A pattern-2/3 numeral run consists of Chinese-numeral-class characters. -/
theorem searchRun_run_chinese (units : List Char) :
    ∀ f run u : _, searchRun units f = some (run, u) →
      ∀ c ∈ run, isChineseNumChar c = true := by
  intro f
  induction f with
  | nil => intro run u h; simp [searchRun] at h
  | cons c rest ih =>
    intro run u h
    simp only [searchRun] at h
    by_cases hc : isChineseNumChar c = true
    · rw [if_pos hc] at h
      cases hch : classHead units (rest.dropWhile isChineseNumChar) with
      | none =>
        rw [hch] at h
        exact ih run u h
      | some u' =>
        rw [hch] at h
        simp only [Option.some.injEq, Prod.mk.injEq] at h
        intro d hd
        rw [← h.1] at hd
        rcases List.mem_cons.mp hd with h' | h'
        · exact h' ▸ hc
        · exact List.mem_takeWhile_imp h'
    · rw [if_neg hc] at h
      exact ih run u h

/-- The numeral token the source selects is drawn entirely from the
Chinese-numeral class: it never contains a decimal digit.  Hence the
hypothesis of the spec's digit-fast-path property for normalizeNumeral (the
matched token consisting solely of decimal digits) is unsatisfiable on this
code - the isdigit fast path of chinese_to_arabic is unreachable from
replace_chinese_numbers. -/
theorem matched_token_never_all_digits (f : List Char) (gs : List (List Char))
    (tok : List Char) (h1 : firstMatchGroups f = some gs) (h2 : pickGroup gs = some tok) :
    ¬ (∀ c ∈ tok, Char.isDigit c = true) := by
  intro hd
  have hne := pickGroup_ne_nil f gs tok h1 h2
  have hch : ∀ c ∈ tok, isChineseNumChar c = true := by
    unfold firstMatchGroups at h1
    cases hL : searchLead unitsP1 f with
    | some ru =>
      obtain ⟨run, u⟩ := ru
      rw [hL] at h1
      simp only [Option.some.injEq] at h1
      subst h1
      simp only [pickGroup] at h2
      norm_num at h2
      rw [← h2]
      exact searchLead_run_chinese unitsP1 f run u hL
    | none =>
      rw [hL] at h1
      cases h2' : searchRun unitsP2 f with
      | some ru =>
        obtain ⟨run, u⟩ := ru
        rw [h2'] at h1
        simp only [Option.some.injEq] at h1
        subst h1
        simp only [pickGroup] at h2
        norm_num at h2
        rw [← h2]
        exact searchRun_run_chinese unitsP2 f run u h2'
      | none =>
        rw [h2'] at h1
        cases h3' : searchRun sepsP3 f with
        | some ru =>
          obtain ⟨run, u⟩ := ru
          rw [h3'] at h1
          simp only [Option.some.injEq] at h1
          subst h1
          simp [pickGroup] at h2
        | none =>
          rw [h3'] at h1
          simp at h1
  cases tok with
  | nil => exact hne rfl
  | cons c t =>
    have hcd := hd c (List.mem_cons_self c t)
    have hcc := chineseNumChar_not_digit c (hch c (List.mem_cons_self c t))
    rw [hcd] at hcc
    exact absurd hcc (by decide)

-- Consequence for the always-unchanged direction: a filename whose marker is
-- already in digits can still trip pattern 3 elsewhere (the IndexError of C1),
-- so no non-vacuous digit-fast-path statement holds of replace_chinese_numbers.
example : replace_chinese_numbers "第123章 十 x.txt" = .error "IndexError: no such group" := by
  decide
example : replace_chinese_numbers "第123章.txt" = .ok "第123章.txt" := by decide
